import Mathlib

/-!
Verification of the exponential-phase detector of `growth_curve.py`.

The embedding models the core function `detect_exponential_phase(time, od_values,
min_window_size, max_window_size, r_squared_threshold)` together with its calls to
`scipy.stats.linregress(time[start:end], np.log(od_values[start:end]))`.

Modelling conventions:
- Floating-point numbers are modelled by the rationals `ℚ`.
- The natural logarithm on positive arguments is not rational, so it is kept as an
  explicit parameter `lg : ℚ → ℚ`; theorems quantify over it, and the only property
  ever needed of it is monotonicity (which the real `ln` has on positives).
- `np.log` applied to a value `≤ 0` does NOT raise in numpy: it emits a runtime
  warning and evaluates to `-inf` (for `0`) or `nan` (for negatives).  Feeding such
  values to `linregress` makes the returned `slope` and `rvalue` non-finite (`nan`),
  and every comparison `nan > x` is `False`.  The model collapses this path into an
  `Option`: a window containing a non-positive OD value fits to `none`, and the
  selection test on a `none` fit is false, exactly as the `nan` comparison is.
- Windows whose time values are all identical divide by a zero variance; scipy's
  behaviour there is outside the spec's stated domain (the spec calls it a
  precondition violation).  `ℚ` division by zero yields `0` in the model; no claim
  below depends on such windows.
-/

/-- Mirror of the 5-tuple `(best_start, best_end, best_window_size, best_slope,
best_r_squared)` returned by `detect_exponential_phase`. -/
structure DetectionResult where
  start : ℕ
  stop : ℕ
  window_size : ℕ
  slope : ℚ
  r_squared : ℚ
deriving DecidableEq

/-- Arithmetic mean of a list of rationals (`0` for the empty list, by the `ℚ`
convention that division by zero is zero). -/
def listMean (xs : List ℚ) : ℚ := xs.sum / xs.length

/-- Sum of products of paired deviations from the means:
`Σ (xᵢ − mean xs) * (yᵢ − mean ys)` over `xs.zip ys`.  With `ys = xs` this is the
(unnormalised) variance sum; in general the covariance sum of the two samples. -/
def devProdSum (xs ys : List ℚ) : ℚ :=
  ((xs.zip ys).map (fun p => (p.1 - listMean xs) * (p.2 - listMean ys))).sum

/-- Slope of the ordinary least-squares fit of `ys` on `xs`, as computed by
`scipy.stats.linregress`: `Σ(xᵢ−x̄)(yᵢ−ȳ) / Σ(xᵢ−x̄)²`. -/
def lrSlope (xs ys : List ℚ) : ℚ := devProdSum xs ys / devProdSum xs xs

/-- Square of the Pearson correlation coefficient returned by `linregress`
(`r_value**2` in the source): `(Σ(xᵢ−x̄)(yᵢ−ȳ))² / (Σ(xᵢ−x̄)² · Σ(yᵢ−ȳ)²)`.
When `ys` is constant the numerator is `0`, matching scipy's `r = 0` convention. -/
def lrRsq (xs ys : List ℚ) : ℚ :=
  (devProdSum xs ys) ^ 2 / (devProdSum xs xs * devProdSum ys ys)

/-- Python slicing `v[start : start + size]` (for the windows enumerated by the
detector, `start + size ≤ len v`, so no clamping is exercised). -/
def windowSlice (v : List ℚ) (start size : ℕ) : List ℚ := (v.drop start).take size

/-- Fit of one candidate window: the source line
`slope, intercept, r_value, _, _ = linregress(time[start:end], np.log(od_values[start:end]))`
followed by `current_r_squared = r_value**2`.  The result is the pair
`(slope, current_r_squared)`.  A window containing an OD value `≤ 0` is modelled as
`none`: `np.log` produces a non-finite float there (a warning, not an exception),
the regression outputs become `nan`, and the subsequent threshold comparison is
false. -/
def fitWindow (lg : ℚ → ℚ) (time od : List ℚ) (start wsize : ℕ) : Option (ℚ × ℚ) :=
  if (windowSlice od start wsize).all (fun x => decide (0 < x)) then
    some (lrSlope (windowSlice time start wsize) ((windowSlice od start wsize).map lg),
          lrRsq (windowSlice time start wsize) ((windowSlice od start wsize).map lg))
  else
    none

/-- Scan order of the double loop: `(window_size, start)` pairs with
`window_size` running over `range(min_window_size, max_window_size + 1)` and, inside,
`start` over `range(len(time) - window_size + 1)` (empty when that bound is not
positive, hence the truncated subtraction `n + 1 - w`). -/
def windows (n mn mx : ℕ) : List (ℕ × ℕ) :=
  (List.range' mn (mx + 1 - mn)).flatMap
    (fun w => (List.range (n + 1 - w)).map (fun s => (w, s)))

/-- Body of the inner loop: fit the window `p = (window_size, start)` and replace the
running best iff `current_r_squared > r_squared_threshold and slope > best_slope`. -/
def stepBest (lg : ℚ → ℚ) (time od : List ℚ) (thr : ℚ)
    (best : DetectionResult) (p : ℕ × ℕ) : DetectionResult :=
  match fitWindow lg time od p.2 p.1 with
  | some (slope, r2) =>
      if thr < r2 ∧ best.slope < slope then
        ⟨p.2, p.2 + p.1, p.1, slope, r2⟩
      else
        best
  | none => best

/-- Initial (fallback) best: `best_r_squared = 0`, `best_slope = 0`,
`best_start, best_end, best_window_size = 0, min_window_size, min_window_size`. -/
def initBest (mn : ℕ) : DetectionResult := ⟨0, mn, mn, 0, 0⟩

/-- The detector `detect_exponential_phase` of `growth_curve.py` (defaults in the
source: `min_window_size=3`, `max_window_size=7`, `r_squared_threshold=0.8`). -/
def detect_exponential_phase (lg : ℚ → ℚ) (time od : List ℚ)
    (min_window_size max_window_size : ℕ) (r_squared_threshold : ℚ) : DetectionResult :=
  (windows time.length min_window_size max_window_size).foldl
    (stepBest lg time od r_squared_threshold) (initBest min_window_size)

/-- Strict scan order on `(window_size, start)` pairs: sizes ascending in the
outer loop, starts ascending within a size. -/
def posLT (a b : ℕ × ℕ) : Prop := a.1 < b.1 ∨ (a.1 = b.1 ∧ a.2 < b.2)

/-- Reflexive scan order on `(window_size, start)` pairs. -/
def posLE (a b : ℕ × ℕ) : Prop := a.1 < b.1 ∨ (a.1 = b.1 ∧ a.2 ≤ b.2)

instance (a b : ℕ × ℕ) : Decidable (posLT a b) := by unfold posLT; infer_instance

instance (a b : ℕ × ℕ) : Decidable (posLE a b) := by unfold posLE; infer_instance

/-- Dot-product sum `Σ xᵢ yᵢ` over `xs.zip ys`. -/
def dotSum (xs ys : List ℚ) : ℚ := ((xs.zip ys).map (fun p => p.1 * p.2)).sum

/-! Lemmas about one loop iteration and the fold over the scan list. -/

theorem stepBest_slope_le (lg : ℚ → ℚ) (time od : List ℚ) (thr : ℚ)
    (best : DetectionResult) (p : ℕ × ℕ) :
    best.slope ≤ (stepBest lg time od thr best p).slope := by
  unfold stepBest
  cases hfit : fitWindow lg time od p.2 p.1 with
  | none => exact le_rfl
  | some q =>
      rcases q with ⟨sl, r2⟩
      dsimp only
      split_ifs with h
      · exact le_of_lt h.2
      · exact le_rfl

theorem stepBest_cases (lg : ℚ → ℚ) (time od : List ℚ) (thr : ℚ)
    (best : DetectionResult) (p : ℕ × ℕ) :
    stepBest lg time od thr best p = best ∨
      ∃ sl r2, fitWindow lg time od p.2 p.1 = some (sl, r2) ∧ thr < r2 ∧
        best.slope < sl ∧ stepBest lg time od thr best p = ⟨p.2, p.2 + p.1, p.1, sl, r2⟩ := by
  unfold stepBest
  cases hfit : fitWindow lg time od p.2 p.1 with
  | none => exact Or.inl rfl
  | some q =>
      rcases q with ⟨sl, r2⟩
      dsimp only
      split_ifs with h
      · exact Or.inr ⟨sl, r2, rfl, h.1, h.2, rfl⟩
      · exact Or.inl rfl

theorem foldl_slope_le (lg : ℚ → ℚ) (time od : List ℚ) (thr : ℚ)
    (L : List (ℕ × ℕ)) (best : DetectionResult) :
    best.slope ≤ (L.foldl (stepBest lg time od thr) best).slope := by
  induction L generalizing best with
  | nil => exact le_rfl
  | cons p L ih =>
      exact le_trans (stepBest_slope_le lg time od thr best p)
        (ih (stepBest lg time od thr best p))

theorem foldl_eq_of_slope_le (lg : ℚ → ℚ) (time od : List ℚ) (thr : ℚ)
    (L : List (ℕ × ℕ)) (best : DetectionResult)
    (h : (L.foldl (stepBest lg time od thr) best).slope ≤ best.slope) :
    L.foldl (stepBest lg time od thr) best = best := by
  induction L generalizing best with
  | nil => rfl
  | cons p L ih =>
      rcases stepBest_cases lg time od thr best p with heq | ⟨sl, r2, _, _, hsl, heq⟩
      · rw [List.foldl_cons, heq] at h ⊢
        exact ih best h
      · exfalso
        rw [List.foldl_cons, heq] at h
        have h2 := foldl_slope_le lg time od thr L
          (⟨p.2, p.2 + p.1, p.1, sl, r2⟩ : DetectionResult)
        exact absurd (le_trans h2 h) (not_le.mpr hsl)

theorem foldl_qual_slope_le (lg : ℚ → ℚ) (time od : List ℚ) (thr : ℚ)
    (L : List (ℕ × ℕ)) (best : DetectionResult) (p : ℕ × ℕ) (hp : p ∈ L)
    (sl r2 : ℚ) (hfit : fitWindow lg time od p.2 p.1 = some (sl, r2)) (hr2 : thr < r2) :
    sl ≤ (L.foldl (stepBest lg time od thr) best).slope := by
  induction L generalizing best with
  | nil => cases hp
  | cons q L ih =>
      rw [List.foldl_cons]
      rcases List.mem_cons.mp hp with rfl | hp'
      · by_cases hlt : best.slope < sl
        · have hstep : stepBest lg time od thr best p = ⟨p.2, p.2 + p.1, p.1, sl, r2⟩ := by
            unfold stepBest
            rw [hfit]
            dsimp only
            rw [if_pos ⟨hr2, hlt⟩]
          rw [hstep]
          have := foldl_slope_le lg time od thr L
            (⟨p.2, p.2 + p.1, p.1, sl, r2⟩ : DetectionResult)
          exact this
        · push_neg at hlt
          exact le_trans hlt (le_trans (stepBest_slope_le lg time od thr best p)
            (foldl_slope_le lg time od thr L _))
      · exact ih _ hp'

theorem foldl_eq_or_rsq (lg : ℚ → ℚ) (time od : List ℚ) (thr : ℚ)
    (L : List (ℕ × ℕ)) (best : DetectionResult) :
    L.foldl (stepBest lg time od thr) best = best ∨
      thr < (L.foldl (stepBest lg time od thr) best).r_squared := by
  induction L generalizing best with
  | nil => exact Or.inl rfl
  | cons p L ih =>
      rw [List.foldl_cons]
      rcases stepBest_cases lg time od thr best p with heq | ⟨sl, r2, _, hr2, _, heq⟩
      · rw [heq]
        exact ih best
      · rw [heq]
        rcases ih (⟨p.2, p.2 + p.1, p.1, sl, r2⟩ : DetectionResult) with h | h
        · rw [h]
          exact Or.inr hr2
        · exact Or.inr h

theorem foldl_eq_or_selected (lg : ℚ → ℚ) (time od : List ℚ) (thr : ℚ)
    (L : List (ℕ × ℕ)) (best : DetectionResult) :
    L.foldl (stepBest lg time od thr) best = best ∨
      ∃ p ∈ L, ∃ sl r2, fitWindow lg time od p.2 p.1 = some (sl, r2) ∧ thr < r2 ∧
        L.foldl (stepBest lg time od thr) best = ⟨p.2, p.2 + p.1, p.1, sl, r2⟩ := by
  induction L generalizing best with
  | nil => exact Or.inl rfl
  | cons p L ih =>
      rw [List.foldl_cons]
      rcases stepBest_cases lg time od thr best p with heq | ⟨sl, r2, hfit, hr2, _, heq⟩
      · rw [heq]
        rcases ih best with h | ⟨q, hq, sl, r2, hfit, hr2, h⟩
        · exact Or.inl h
        · exact Or.inr ⟨q, List.mem_cons_of_mem _ hq, sl, r2, hfit, hr2, h⟩
      · rw [heq]
        rcases ih (⟨p.2, p.2 + p.1, p.1, sl, r2⟩ : DetectionResult)
          with h | ⟨q, hq, sl', r2', hfit', hr2', h⟩
        · exact Or.inr ⟨p, List.mem_cons_self p L, sl, r2, hfit, hr2, h⟩
        · exact Or.inr ⟨q, List.mem_cons_of_mem _ hq, sl', r2', hfit', hr2', h⟩

/-! Structure of the scan list `windows`. -/

theorem mem_windows {n mn mx : ℕ} {p : ℕ × ℕ} :
    p ∈ windows n mn mx ↔ mn ≤ p.1 ∧ p.1 ≤ mx ∧ p.2 + p.1 ≤ n := by
  rcases p with ⟨w, s⟩
  simp only [windows, List.mem_flatMap, List.mem_map, List.mem_range, List.mem_range'_1,
    Prod.mk.injEq]
  constructor
  · rintro ⟨w', ⟨hw1, hw2⟩, s', hs', rfl, rfl⟩
    omega
  · rintro ⟨h1, h2, h3⟩
    exact ⟨w, by omega, s, by omega, rfl, rfl⟩

theorem windows_pairwise (n mn mx : ℕ) : (windows n mn mx).Pairwise posLT := by
  unfold windows
  rw [List.pairwise_flatMap]
  constructor
  · intro w _
    rw [List.pairwise_map]
    exact (List.pairwise_lt_range _).imp (fun h => Or.inr ⟨rfl, h⟩)
  · apply (List.pairwise_lt_range' _ _).imp
    intro a b hab x hx y hy
    rcases List.mem_map.mp hx with ⟨sx, _, rfl⟩
    rcases List.mem_map.mp hy with ⟨sy, _, rfl⟩
    exact Or.inl hab

theorem posLE_of_posLT {a b : ℕ × ℕ} (h : posLT a b) : posLE a b := by
  rcases h with h | ⟨h1, h2⟩
  · exact Or.inl h
  · exact Or.inr ⟨h1, le_of_lt h2⟩

/-- Core of the tie-break analysis: along a scan list that is strictly ordered by
`posLT`, whenever a qualifying window's slope equals the slope of the final best, the
final best's position is at or before that window in scan order. -/
theorem foldl_first_found (lg : ℚ → ℚ) (time od : List ℚ) (thr : ℚ)
    (L : List (ℕ × ℕ)) (best : DetectionResult)
    (hsort : L.Pairwise posLT)
    (hinit : ∀ q ∈ L, posLE (best.window_size, best.start) q)
    (p : ℕ × ℕ) (hp : p ∈ L) (sl r2 : ℚ)
    (hfit : fitWindow lg time od p.2 p.1 = some (sl, r2)) (hr2 : thr < r2)
    (hsl : sl = (L.foldl (stepBest lg time od thr) best).slope) :
    posLE ((L.foldl (stepBest lg time od thr) best).window_size,
           (L.foldl (stepBest lg time od thr) best).start) p := by
  induction L generalizing best with
  | nil => cases hp
  | cons q L ih =>
      rw [List.foldl_cons] at hsl ⊢
      rcases List.mem_cons.mp hp with rfl | hp'
      · rcases stepBest_cases lg time od thr best p
          with heq | ⟨sl', r2', hfit', hr2', hsl', heq⟩
        · have hcond : ¬ (thr < r2 ∧ best.slope < sl) := by
            intro hc
            have hrepl : stepBest lg time od thr best p =
                ⟨p.2, p.2 + p.1, p.1, sl, r2⟩ := by
              unfold stepBest
              rw [hfit]
              dsimp only
              rw [if_pos hc]
            rw [heq] at hrepl
            have hslope := congrArg DetectionResult.slope hrepl
            dsimp only at hslope
            exact absurd hslope (ne_of_lt hc.2)
          have hle : sl ≤ best.slope := by
            by_contra hgt
            exact hcond ⟨hr2, lt_of_not_le hgt⟩
          rw [heq] at hsl ⊢
          have hfix : L.foldl (stepBest lg time od thr) best = best :=
            foldl_eq_of_slope_le lg time od thr L best (hsl ▸ hle)
          rw [hfix]
          exact hinit p (List.mem_cons_self p L)
        · rw [hfit] at hfit'
          injection hfit' with hpair
          rw [Prod.mk.injEq] at hpair
          rcases hpair with ⟨h1, h2⟩
          rw [heq] at hsl ⊢
          have hfix : L.foldl (stepBest lg time od thr)
              (⟨p.2, p.2 + p.1, p.1, sl', r2'⟩ : DetectionResult) =
              ⟨p.2, p.2 + p.1, p.1, sl', r2'⟩ := by
            apply foldl_eq_of_slope_le
            rw [← hsl, h1]
          rw [hfix]
          exact Or.inr ⟨rfl, le_refl _⟩
      · rcases List.pairwise_cons.mp hsort with ⟨hq, hsort'⟩
        rcases stepBest_cases lg time od thr best q
          with heq | ⟨sl', r2', hfit', hr2', hsl', heq⟩
        · rw [heq] at hsl ⊢
          exact ih _ hsort' (fun z hz => hinit z (List.mem_cons_of_mem _ hz)) hp' hsl
        · rw [heq] at hsl ⊢
          exact ih _ hsort' (fun z hz => posLE_of_posLT (hq z hz)) hp' hsl

/-! Sign of the regression slope on monotone data (a Chebyshev-type sum argument,
used for the decaying-series behaviour). -/

theorem listSum_nonpos {l : List ℚ} (h : ∀ x ∈ l, x ≤ 0) : l.sum ≤ 0 := by
  induction l with
  | nil => simp
  | cons x l ih =>
      rw [List.sum_cons]
      have hx := h x (List.mem_cons_self x l)
      have hl := ih (fun z hz => h z (List.mem_cons_of_mem _ hz))
      linarith

theorem listSum_nonneg {l : List ℚ} (h : ∀ x ∈ l, 0 ≤ x) : l.sum ≥ 0 := by
  induction l with
  | nil => simp
  | cons x l ih =>
      rw [List.sum_cons]
      have hx := h x (List.mem_cons_self x l)
      have hl := ih (fun z hz => h z (List.mem_cons_of_mem _ hz))
      linarith

theorem zip_shift_sum (a b : ℚ) :
    ∀ (xs ys : List ℚ), xs.length = ys.length →
      ((xs.zip ys).map (fun p => (p.1 - a) * (p.2 - b))).sum =
        dotSum xs ys - a * ys.sum - b * xs.sum + xs.length * (a * b) := by
  intro xs
  induction xs with
  | nil =>
      intro ys hlen
      cases ys with
      | nil => simp [dotSum]
      | cons y ys => simp at hlen
  | cons x xs ih =>
      intro ys hlen
      cases ys with
      | nil => simp at hlen
      | cons y ys =>
          simp only [List.length_cons, Nat.succ.injEq] at hlen
          simp only [List.zip_cons_cons, List.map_cons, List.sum_cons, dotSum,
            List.length_cons]
          have := ih ys hlen
          rw [dotSum] at this
          rw [this]
          push_cast
          ring

theorem chebyshev_sum_le (xs ys : List ℚ)
    (hxs : xs.Pairwise (· ≤ ·)) (hys : ys.Pairwise (fun a b => b ≤ a))
    (hlen : xs.length = ys.length) :
    (xs.length : ℚ) * dotSum xs ys ≤ xs.sum * ys.sum := by
  induction xs generalizing ys with
  | nil =>
      cases ys with
      | nil => simp [dotSum]
      | cons y ys => simp at hlen
  | cons x xs ih =>
      cases ys with
      | nil => simp at hlen
      | cons y ys =>
          simp only [List.length_cons, Nat.succ.injEq] at hlen
          rcases List.pairwise_cons.mp hxs with ⟨hx, hxs'⟩
          rcases List.pairwise_cons.mp hys with ⟨hy, hys'⟩
          have hIH := ih ys hxs' hys' hlen
          have hsingle : ((xs.zip ys).map (fun p => (p.1 - x) * (p.2 - y))).sum ≤ 0 := by
            apply listSum_nonpos
            intro z hz
            rcases List.mem_map.mp hz with ⟨p, hp, rfl⟩
            rcases p with ⟨u, v⟩
            rcases List.of_mem_zip hp with ⟨hu, hv⟩
            have h1 : x ≤ u := hx u hu
            have h2 : v ≤ y := hy v hv
            nlinarith
          rw [zip_shift_sum x y xs ys hlen] at hsingle
          simp only [List.zip_cons_cons, List.map_cons, List.sum_cons, dotSum,
            List.length_cons] at *
          rw [hlen] at hsingle hIH ⊢
          push_cast
          nlinarith [hIH, hsingle]

theorem devProdSum_eq (xs ys : List ℚ) (hlen : xs.length = ys.length) :
    devProdSum xs ys = dotSum xs ys - (xs.sum * ys.sum) / xs.length := by
  cases xs with
  | nil =>
      cases ys with
      | nil => simp [devProdSum, dotSum]
      | cons y ys => simp at hlen
  | cons x xs =>
      have hn : ((x :: xs).length : ℚ) ≠ 0 := by
        simp only [List.length_cons]
        push_cast
        positivity
      unfold devProdSum
      rw [zip_shift_sum (listMean (x :: xs)) (listMean ys) (x :: xs) ys hlen]
      unfold listMean
      rw [← hlen]
      field_simp
      ring

theorem mem_zip_self {p : ℚ × ℚ} : ∀ {l : List ℚ}, p ∈ l.zip l → p.1 = p.2 := by
  intro l
  induction l with
  | nil => intro h; cases h
  | cons x t ih =>
      intro h
      rw [List.zip_cons_cons] at h
      rcases List.mem_cons.mp h with rfl | h'
      · rfl
      · exact ih h'

theorem devProdSum_self_nonneg (xs : List ℚ) : 0 ≤ devProdSum xs xs := by
  apply listSum_nonneg
  intro z hz
  rcases List.mem_map.mp hz with ⟨p, hp, rfl⟩
  have := mem_zip_self hp
  rw [this]
  exact mul_self_nonneg _

theorem devProdSum_nonpos (xs ys : List ℚ)
    (hxs : xs.Pairwise (· ≤ ·)) (hys : ys.Pairwise (fun a b => b ≤ a))
    (hlen : xs.length = ys.length) : devProdSum xs ys ≤ 0 := by
  cases hx : xs with
  | nil => simp [devProdSum]
  | cons a l =>
      rw [← hx]
      rw [devProdSum_eq xs ys hlen]
      have hn : (0 : ℚ) < xs.length := by
        rw [hx, List.length_cons]
        push_cast
        positivity
      have hcheb := chebyshev_sum_le xs ys hxs hys hlen
      rw [sub_nonpos, le_div_iff₀ hn]
      linarith

theorem lrSlope_nonpos (xs ys : List ℚ)
    (hxs : xs.Pairwise (· ≤ ·)) (hys : ys.Pairwise (fun a b => b ≤ a))
    (hlen : xs.length = ys.length) : lrSlope xs ys ≤ 0 := by
  unfold lrSlope
  exact div_nonpos_iff.mpr
    (Or.inr ⟨devProdSum_nonpos xs ys hxs hys hlen, devProdSum_self_nonneg xs⟩)

/-! Further helper lemmas for assembling the claims. -/

theorem foldl_fix (lg : ℚ → ℚ) (time od : List ℚ) (thr : ℚ)
    (L : List (ℕ × ℕ)) (b : DetectionResult)
    (h : ∀ p ∈ L, stepBest lg time od thr b p = b) :
    L.foldl (stepBest lg time od thr) b = b := by
  induction L with
  | nil => rfl
  | cons p L ih =>
      rw [List.foldl_cons, h p (List.mem_cons_self p L)]
      exact ih (fun q hq => h q (List.mem_cons_of_mem _ hq))

theorem foldl_preserve (lg : ℚ → ℚ) (time od : List ℚ) (thr : ℚ)
    {P : DetectionResult → Prop} (L : List (ℕ × ℕ)) (b : DetectionResult) (hb : P b)
    (hstep : ∀ r p, p ∈ L → P r → P (stepBest lg time od thr r p)) :
    P (L.foldl (stepBest lg time od thr) b) := by
  induction L generalizing b with
  | nil => exact hb
  | cons p L ih =>
      exact ih _ (hstep b p (List.mem_cons_self p L) hb)
        (fun r q hq hr => hstep r q (List.mem_cons_of_mem _ hq) hr)

theorem fitWindow_eq_some {lg : ℚ → ℚ} {time od : List ℚ} {s w : ℕ} {sl r2 : ℚ}
    (h : fitWindow lg time od s w = some (sl, r2)) :
    (windowSlice od s w).all (fun x => decide (0 < x)) = true ∧
    sl = lrSlope (windowSlice time s w) ((windowSlice od s w).map lg) ∧
    r2 = lrRsq (windowSlice time s w) ((windowSlice od s w).map lg) := by
  unfold fitWindow at h
  split_ifs at h with hc
  · injection h with h'
    rw [Prod.mk.injEq] at h'
    exact ⟨hc, h'.1.symm, h'.2.symm⟩

theorem fitWindow_eq_none {lg : ℚ → ℚ} {time od : List ℚ} {s w : ℕ}
    (h : ∃ x ∈ windowSlice od s w, x ≤ 0) : fitWindow lg time od s w = none := by
  unfold fitWindow
  rw [if_neg]
  simp only [List.all_eq_true, decide_eq_true_eq]
  push_neg
  rcases h with ⟨x, hx, hx0⟩
  exact ⟨x, hx, hx0⟩

theorem windowSlice_sublist (v : List ℚ) (s k : ℕ) : (windowSlice v s k).Sublist v :=
  (List.take_sublist _ _).trans (List.drop_sublist _ _)

theorem windowSlice_pairwise {R : ℚ → ℚ → Prop} {v : List ℚ} (h : v.Pairwise R)
    (s k : ℕ) : (windowSlice v s k).Pairwise R :=
  h.sublist (windowSlice_sublist v s k)

theorem windowSlice_length_eq {time od : List ℚ} (h : time.length = od.length)
    (lg : ℚ → ℚ) (s k : ℕ) :
    (windowSlice time s k).length = ((windowSlice od s k).map lg).length := by
  simp [windowSlice, h]

theorem stepBest_decay (lg : ℚ → ℚ) (time od : List ℚ) (thr : ℚ) (p : ℕ × ℕ)
    (ht : time.Pairwise (· < ·)) (ho : od.Pairwise (fun a b => b < a))
    (hmono : ∀ a b : ℚ, a ≤ b → lg a ≤ lg b) (hlen : time.length = od.length)
    (best : DetectionResult) (hbs : 0 ≤ best.slope) :
    stepBest lg time od thr best p = best := by
  unfold stepBest
  cases hfit : fitWindow lg time od p.2 p.1 with
  | none => rfl
  | some q =>
      rcases q with ⟨sl, r2⟩
      dsimp only
      rw [if_neg]
      rintro ⟨-, hlt⟩
      rcases fitWindow_eq_some hfit with ⟨-, hsl, -⟩
      have hts : (windowSlice time p.2 p.1).Pairwise (· ≤ ·) :=
        (windowSlice_pairwise ht p.2 p.1).imp le_of_lt
      have hys : (((windowSlice od p.2 p.1).map lg)).Pairwise (fun a b => b ≤ a) :=
        (windowSlice_pairwise ho p.2 p.1).map lg
          (fun a b hab => hmono _ _ (le_of_lt hab))
      have := lrSlope_nonpos _ _ hts hys (windowSlice_length_eq hlen lg p.2 p.1)
      rw [← hsl] at this
      linarith

/-! The claims. -/

/-- C1: for every input and parameters, no qualifying window — a window in the
search space whose log-linear fit has `R²` strictly above `r_squared_threshold` —
has a slope strictly greater than the slope returned by
`detect_exponential_phase`. -/
theorem claim_C1_steepest_qualifying (lg : ℚ → ℚ) (time od : List ℚ)
    (mn mx : ℕ) (thr : ℚ) (w s : ℕ)
    (hmem : (w, s) ∈ windows time.length mn mx) (sl r2 : ℚ)
    (hfit : fitWindow lg time od s w = some (sl, r2)) (hr2 : thr < r2) :
    sl ≤ (detect_exponential_phase lg time od mn mx thr).slope :=
  foldl_qual_slope_le lg time od thr _ (initBest mn) (w, s) hmem sl r2 hfit hr2

/-- C2: if every candidate window whose regression produces a finite `R²` has
`R² ≤ r_squared_threshold`, `detect_exponential_phase` returns exactly the fallback
tuple `(0, min_window_size, min_window_size, 0, 0)` (no error is raised; the zeros
are the initial values, not the result of a regression). -/
theorem claim_C2_fallback (lg : ℚ → ℚ) (time od : List ℚ) (mn mx : ℕ) (thr : ℚ)
    (h : ∀ w s sl r2, (w, s) ∈ windows time.length mn mx →
        fitWindow lg time od s w = some (sl, r2) → r2 ≤ thr) :
    detect_exponential_phase lg time od mn mx thr = ⟨0, mn, mn, 0, 0⟩ := by
  apply foldl_fix
  rintro ⟨w, s⟩ hp
  unfold stepBest
  cases hfit : fitWindow lg time od s w with
  | none => rfl
  | some q =>
      rcases q with ⟨sl, r2⟩
      dsimp only
      rw [if_neg]
      rintro ⟨hlt, -⟩
      exact absurd hlt (not_lt.mpr (h w s sl r2 hp hfit))

/-- C3: the replacement test on slope is strict — a candidate whose slope equals the
running `best_slope` never replaces the incumbent — and consequently, among scanned
windows of equal maximal qualifying slope the first-found in scan order wins:
the returned `(window_size, start)` is at or before every such window in the
lexicographic scan order (smallest window size first, then smallest start). -/
theorem claim_C3_strict_and_first_found (lg : ℚ → ℚ) (time od : List ℚ)
    (mn mx : ℕ) (thr : ℚ) :
    (∀ (best : DetectionResult) (p : ℕ × ℕ) (sl r2 : ℚ),
        fitWindow lg time od p.2 p.1 = some (sl, r2) → sl = best.slope →
        stepBest lg time od thr best p = best) ∧
    (∀ w s sl r2, (w, s) ∈ windows time.length mn mx →
        fitWindow lg time od s w = some (sl, r2) → thr < r2 →
        sl = (detect_exponential_phase lg time od mn mx thr).slope →
        posLE ((detect_exponential_phase lg time od mn mx thr).window_size,
               (detect_exponential_phase lg time od mn mx thr).start) (w, s)) := by
  constructor
  · intro best p sl r2 hfit heq
    unfold stepBest
    rw [hfit]
    dsimp only
    rw [if_neg]
    rintro ⟨-, hlt⟩
    rw [heq] at hlt
    exact lt_irrefl _ hlt
  · intro w s sl r2 hmem hfit hr2 hsl
    apply foldl_first_found lg time od thr _ (initBest mn)
      (windows_pairwise _ _ _) _ (w, s) hmem sl r2 hfit hr2 hsl
    intro q hq
    rcases mem_windows.mp hq with ⟨h1, -, -⟩
    rcases lt_or_eq_of_le h1 with h | h
    · exact Or.inl h
    · exact Or.inr ⟨h, Nat.zero_le _⟩

/-- C7: whenever the result of `detect_exponential_phase` is not the fallback tuple
(equivalently, some candidate replaced the initial best), the returned `r_squared`
is strictly greater than `r_squared_threshold`. -/
theorem claim_C7_threshold_gate (lg : ℚ → ℚ) (time od : List ℚ) (mn mx : ℕ) (thr : ℚ)
    (h : detect_exponential_phase lg time od mn mx thr ≠ ⟨0, mn, mn, 0, 0⟩) :
    thr < (detect_exponential_phase lg time od mn mx thr).r_squared := by
  rcases foldl_eq_or_rsq lg time od thr (windows time.length mn mx) (initBest mn)
    with heq | hlt
  · exact absurd heq h
  · exact hlt

/-- C8: `detect_exponential_phase` is deterministic — two calls with identical
arguments (including the same logarithm function) return identical results; the
model is a pure function with no hidden state. -/
theorem claim_C8_deterministic (lgA lgB : ℚ → ℚ) (timeA timeB odA odB : List ℚ)
    (mnA mnB mxA mxB : ℕ) (thrA thrB : ℚ)
    (hlg : lgA = lgB) (ht : timeA = timeB) (ho : odA = odB)
    (hmn : mnA = mnB) (hmx : mxA = mxB) (hthr : thrA = thrB) :
    detect_exponential_phase lgA timeA odA mnA mxA thrA =
      detect_exponential_phase lgB timeB odB mnB mxB thrB := by
  subst hlg ht ho hmn hmx hthr
  rfl

/-- C9 (implicit): the returned slope is always `≥ 0` (the running best slope starts
at `0` and is only replaced by strictly greater values), and on a strictly decaying
OD series (with strictly increasing times and a monotone logarithm) every window's
slope is `≤ 0`, so the result is the fallback. -/
theorem claim_C9_slope_nonneg_and_decay (lg : ℚ → ℚ) (time od : List ℚ)
    (mn mx : ℕ) (thr : ℚ) :
    0 ≤ (detect_exponential_phase lg time od mn mx thr).slope ∧
    (time.Pairwise (· < ·) → od.Pairwise (fun a b => b < a) →
      (∀ a b : ℚ, a ≤ b → lg a ≤ lg b) → time.length = od.length →
      detect_exponential_phase lg time od mn mx thr = ⟨0, mn, mn, 0, 0⟩) := by
  constructor
  · exact foldl_slope_le lg time od thr _ (initBest mn)
  · intro ht ho hmono hlen
    exact foldl_fix lg time od thr _ (initBest mn)
      (fun p _ => stepBest_decay lg time od thr p ht ho hmono hlen (initBest mn)
        (le_refl 0))

/-- C10 (implicit): a non-fallback result is internally consistent — it is exactly
the record of some scanned window `(w, s)`: `start = s`, `stop = s + w`,
`window_size = w`, and the returned `slope` and `r_squared` are precisely the
log-linear regression outputs for that same window of `time` and `od`. -/
theorem claim_C10_consistency (lg : ℚ → ℚ) (time od : List ℚ) (mn mx : ℕ) (thr : ℚ)
    (h : detect_exponential_phase lg time od mn mx thr ≠ ⟨0, mn, mn, 0, 0⟩) :
    ∃ w s, (w, s) ∈ windows time.length mn mx ∧
      detect_exponential_phase lg time od mn mx thr =
        ⟨s, s + w, w,
          lrSlope (windowSlice time s w) ((windowSlice od s w).map lg),
          lrRsq (windowSlice time s w) ((windowSlice od s w).map lg)⟩ := by
  rcases foldl_eq_or_selected lg time od thr (windows time.length mn mx) (initBest mn)
    with heq | ⟨p, hp, sl, r2, hfit, hr2, heq⟩
  · exact absurd heq h
  · rcases fitWindow_eq_some hfit with ⟨-, hsl, hrq⟩
    refine ⟨p.1, p.2, by simpa using hp, ?_⟩
    rw [show (detect_exponential_phase lg time od mn mx thr) =
      (⟨p.2, p.2 + p.1, p.1, sl, r2⟩ : DetectionResult) from heq, hsl, hrq]

/-- C4 (amended): if some scanned window has `R² > r_squared_threshold` AND a
strictly positive slope, the returned `r_squared` exceeds the threshold; if no
scanned window has both `R² > r_squared_threshold` and positive slope, the result is
exactly the fallback.  (The original claim, without the positive-slope proviso, is
refuted by `claim_C4_counterexample`.) -/
theorem claim_C4_threshold_gate_amended (lg : ℚ → ℚ) (time od : List ℚ)
    (mn mx : ℕ) (thr : ℚ) :
    ((∃ w s sl r2, (w, s) ∈ windows time.length mn mx ∧
        fitWindow lg time od s w = some (sl, r2) ∧ thr < r2 ∧ 0 < sl) →
      thr < (detect_exponential_phase lg time od mn mx thr).r_squared) ∧
    ((∀ w s sl r2, (w, s) ∈ windows time.length mn mx →
        fitWindow lg time od s w = some (sl, r2) → thr < r2 → sl ≤ 0) →
      detect_exponential_phase lg time od mn mx thr = ⟨0, mn, mn, 0, 0⟩) := by
  constructor
  · rintro ⟨w, s, sl, r2, hmem, hfit, hr2, hsl⟩
    have h1 := foldl_qual_slope_le lg time od thr _ (initBest mn) (w, s) hmem sl r2
      hfit hr2
    rcases foldl_eq_or_rsq lg time od thr (windows time.length mn mx) (initBest mn)
      with heq | hlt
    · rw [heq] at h1
      exact absurd (lt_of_lt_of_le hsl h1) (lt_irrefl 0)
    · exact hlt
  · intro h
    apply foldl_fix
    rintro ⟨w, s⟩ hp
    unfold stepBest
    cases hfit : fitWindow lg time od s w with
    | none => rfl
    | some q =>
        rcases q with ⟨sl, r2⟩
        dsimp only
        rw [if_neg]
        rintro ⟨hr2, hlt⟩
        exact absurd hlt (not_lt.mpr (h w s sl r2 hp hfit hr2))

/-- C5 (amended): provided `1 ≤ min_window_size ≤ max_window_size` and
`min_window_size ≤ len(time)`, every result satisfies the bounds invariant
`0 ≤ start < end ≤ len(time)`, `min_window_size ≤ window_size ≤ max_window_size`,
`end − start = window_size`.  (Without `min_window_size ≤ len(time)` the fallback
violates `end ≤ len(time)`: see `claim_C5_counterexample`.) -/
theorem claim_C5_bounds_amended (lg : ℚ → ℚ) (time od : List ℚ) (mn mx : ℕ) (thr : ℚ)
    (h1 : 1 ≤ mn) (h2 : mn ≤ mx) (h3 : mn ≤ time.length) :
    (detect_exponential_phase lg time od mn mx thr).start <
        (detect_exponential_phase lg time od mn mx thr).stop ∧
    (detect_exponential_phase lg time od mn mx thr).stop ≤ time.length ∧
    mn ≤ (detect_exponential_phase lg time od mn mx thr).window_size ∧
    (detect_exponential_phase lg time od mn mx thr).window_size ≤ mx ∧
    (detect_exponential_phase lg time od mn mx thr).stop -
        (detect_exponential_phase lg time od mn mx thr).start =
      (detect_exponential_phase lg time od mn mx thr).window_size := by
  unfold detect_exponential_phase
  have hinv := foldl_preserve lg time od thr
    (P := fun r => r.stop = r.start + r.window_size ∧ r.stop ≤ time.length ∧
      mn ≤ r.window_size ∧ r.window_size ≤ mx ∧ 1 ≤ r.window_size)
    (windows time.length mn mx) (initBest mn)
    ⟨(Nat.zero_add mn).symm, h3, le_refl mn, h2, h1⟩
    (by
      rintro r ⟨w, s⟩ hp hr
      rcases mem_windows.mp hp with ⟨hw1, hw2, hw3⟩
      unfold stepBest
      cases hfit : fitWindow lg time od s w with
      | none => exact hr
      | some q =>
          rcases q with ⟨sl, r2⟩
          dsimp only
          split_ifs with hcond
          · exact ⟨rfl, hw3, hw1, hw2, le_trans h1 hw1⟩
          · exact hr)
  rcases hinv with ⟨ha, hb, hc, hd, he⟩
  refine ⟨?_, hb, hc, hd, ?_⟩ <;> omega

/-- C6 (amended): a window whose OD slice contains a value `≤ 0` does not raise: the
logarithm produces a non-finite float (with a warning), the fit's outputs are `nan`
(modelled `none`), the threshold comparison on `nan` is false, and the window is
silently skipped — the loop state is unchanged and the detector returns a normal
result.  (The original claim, that the detector raises a domain error, is refuted by
`claim_C6_counterexample`.) -/
theorem claim_C6_nonpositive_od_skipped (lg : ℚ → ℚ) (time od : List ℚ) (thr : ℚ)
    (best : DetectionResult) (p : ℕ × ℕ)
    (h : ∃ x ∈ windowSlice od p.2 p.1, x ≤ 0) :
    fitWindow lg time od p.2 p.1 = none ∧
    stepBest lg time od thr best p = best := by
  have hf : fitWindow lg time od p.2 p.1 = none := fitWindow_eq_none h
  refine ⟨hf, ?_⟩
  unfold stepBest
  rw [hf]

/-! Concrete evaluations used by the witnesses and counterexamples. -/

theorem eval_fit_inc : fitWindow id [0, 1, 2] [1, 2, 3] 0 3 = some (1, 1) := by
  norm_num [fitWindow, windowSlice, lrSlope, lrRsq, devProdSum, listMean]

theorem eval_detect_inc :
    detect_exponential_phase id [0, 1, 2] [1, 2, 3] 3 3 (4/5) = ⟨0, 3, 3, 1, 1⟩ := by
  have hw : windows ([0, 1, 2] : List ℚ).length 3 3 = [(3, 0)] := by decide
  rw [detect_exponential_phase, hw]
  norm_num [List.foldl, stepBest, fitWindow, windowSlice, lrSlope, lrRsq, devProdSum,
    listMean, initBest]

theorem eval_fit_dec : fitWindow id [0, 1, 2] [3, 2, 1] 0 3 = some (-1, 1) := by
  norm_num [fitWindow, windowSlice, lrSlope, lrRsq, devProdSum, listMean]

theorem eval_detect_dec :
    detect_exponential_phase id [0, 1, 2] [3, 2, 1] 3 3 (4/5) = ⟨0, 3, 3, 0, 0⟩ := by
  have hw : windows ([0, 1, 2] : List ℚ).length 3 3 = [(3, 0)] := by decide
  rw [detect_exponential_phase, hw]
  norm_num [List.foldl, stepBest, fitWindow, windowSlice, lrSlope, lrRsq, devProdSum,
    listMean, initBest]

theorem eval_fit_flat : fitWindow id [0, 1, 2] [1, 1, 1] 0 3 = some (0, 0) := by
  norm_num [fitWindow, windowSlice, lrSlope, lrRsq, devProdSum, listMean]

theorem eval_detect_poison :
    detect_exponential_phase id [0, 1, 2, 3] [-1, 1, 2, 4] 3 3 (4/5) =
      ⟨1, 4, 3, 3/2, 27/28⟩ := by
  have hw : windows ([0, 1, 2, 3] : List ℚ).length 3 3 = [(3, 0), (3, 1)] := by decide
  rw [detect_exponential_phase, hw]
  norm_num [List.foldl, stepBest, fitWindow, windowSlice, lrSlope, lrRsq, devProdSum,
    listMean, initBest]

/-! Counterexamples refuting C4, C5 and C6 as stated, and the witnesses. -/

/-- C4 counterexample: on `time = [0,1,2]`, `od = [3,2,1]` (strict decay) the single
scanned window qualifies (`R² = 1 > 0.8`) yet its slope is negative, so nothing
replaces the initial best and the returned `r_squared` is `0`, not above the
threshold — the claim "if any scanned window meets the R² threshold then the
returned `best_r_squared` exceeds the threshold" is false as stated. -/
theorem claim_C4_counterexample :
    ((3, 0) ∈ windows ([0, 1, 2] : List ℚ).length 3 3 ∧
      fitWindow id [0, 1, 2] [3, 2, 1] 0 3 = some (-1, 1) ∧ (4/5 : ℚ) < 1) ∧
    ¬ (4/5 : ℚ) <
        (detect_exponential_phase id [0, 1, 2] [3, 2, 1] 3 3 (4/5)).r_squared := by
  refine ⟨⟨by decide, eval_fit_dec, by norm_num⟩, ?_⟩
  rw [eval_detect_dec]
  norm_num

/-- C5 counterexample: with `len(time) = 0 < min_window_size = 3` the fallback is
returned and its `end = 3` exceeds `len(time) = 0`, violating the claimed bound
`end ≤ len(time)`. -/
theorem claim_C5_counterexample :
    ¬ (detect_exponential_phase id [] [] 3 7 (4/5)).stop ≤ ([] : List ℚ).length := by
  decide

/-- C6 counterexample: `od = [-1, 1, 2, 4]` has a non-positive value inside the
scanned window `(3, 0)`, yet `detect_exponential_phase` raises nothing and returns
a normal (even qualifying) result from the later window `(3, 1)` — refuting the
claim that the detector propagates a domain error instead of returning. -/
theorem claim_C6_counterexample :
    (∃ x ∈ windowSlice [-1, 1, 2, 4] 0 3, x ≤ 0) ∧
    detect_exponential_phase id [0, 1, 2, 3] [-1, 1, 2, 4] 3 3 (4/5) =
      ⟨1, 4, 3, 3/2, 27/28⟩ := by
  refine ⟨⟨-1, ?_, by norm_num⟩, eval_detect_poison⟩
  norm_num [windowSlice]

/-- C1 witness at a concrete input. -/
theorem claim_C1_witness :
    (1 : ℚ) ≤ (detect_exponential_phase id [0, 1, 2] [1, 2, 3] 3 3 (4/5)).slope :=
  claim_C1_steepest_qualifying id [0, 1, 2] [1, 2, 3] 3 3 (4/5) 3 0 (by decide) 1 1
    eval_fit_inc (by norm_num)

/-- C2 witness: an all-flat series yields `R² = 0` on the only window, so the
fallback tuple is returned. -/
theorem claim_C2_witness :
    detect_exponential_phase id [0, 1, 2] [1, 1, 1] 3 3 (4/5) = ⟨0, 3, 3, 0, 0⟩ := by
  apply claim_C2_fallback
  intro w s sl r2 hmem hfit
  have hm := mem_windows.mp hmem
  simp only [List.length_cons, List.length_nil] at hm
  obtain ⟨rfl, rfl⟩ : w = 3 ∧ s = 0 := by omega
  rw [eval_fit_flat] at hfit
  injection hfit with h
  rw [Prod.mk.injEq] at h
  rw [← h.2]
  norm_num

/-- C3 witness at a concrete input. -/
theorem claim_C3_witness :
    stepBest id [0, 1, 2] [1, 2, 3] (4/5) ⟨0, 3, 3, 1, 1⟩ (3, 0) = ⟨0, 3, 3, 1, 1⟩ ∧
    posLE ((detect_exponential_phase id [0, 1, 2] [1, 2, 3] 3 3 (4/5)).window_size,
           (detect_exponential_phase id [0, 1, 2] [1, 2, 3] 3 3 (4/5)).start)
      (3, 0) := by
  obtain ⟨h1, h2⟩ := claim_C3_strict_and_first_found id [0, 1, 2] [1, 2, 3] 3 3 (4/5)
  refine ⟨h1 ⟨0, 3, 3, 1, 1⟩ (3, 0) 1 1 eval_fit_inc rfl, ?_⟩
  exact h2 3 0 1 1 (by decide) eval_fit_inc (by norm_num) (by rw [eval_detect_inc])

/-- C4 witness for the amended claim: a qualifying positive-slope window forces a
returned `r_squared` above the threshold, and on the decaying input with no
positive-slope qualifier the fallback is returned. -/
theorem claim_C4_witness :
    (4/5 : ℚ) <
        (detect_exponential_phase id [0, 1, 2] [1, 2, 3] 3 3 (4/5)).r_squared ∧
    detect_exponential_phase id [0, 1, 2] [3, 2, 1] 3 3 (4/5) = ⟨0, 3, 3, 0, 0⟩ := by
  constructor
  · exact (claim_C4_threshold_gate_amended id [0, 1, 2] [1, 2, 3] 3 3 (4/5)).1
      ⟨3, 0, 1, 1, by decide, eval_fit_inc, by norm_num, by norm_num⟩
  · apply (claim_C4_threshold_gate_amended id [0, 1, 2] [3, 2, 1] 3 3 (4/5)).2
    intro w s sl r2 hmem hfit hr2
    have hm := mem_windows.mp hmem
    simp only [List.length_cons, List.length_nil] at hm
    obtain ⟨rfl, rfl⟩ : w = 3 ∧ s = 0 := by omega
    rw [eval_fit_dec] at hfit
    injection hfit with h
    rw [Prod.mk.injEq] at h
    rw [← h.1]
    norm_num

/-- C5 witness for the amended claim at a concrete input. -/
theorem claim_C5_witness :
    (detect_exponential_phase id [0, 1, 2] [1, 2, 3] 3 3 (4/5)).start <
        (detect_exponential_phase id [0, 1, 2] [1, 2, 3] 3 3 (4/5)).stop ∧
    (detect_exponential_phase id [0, 1, 2] [1, 2, 3] 3 3 (4/5)).stop ≤
        ([0, 1, 2] : List ℚ).length ∧
    3 ≤ (detect_exponential_phase id [0, 1, 2] [1, 2, 3] 3 3 (4/5)).window_size ∧
    (detect_exponential_phase id [0, 1, 2] [1, 2, 3] 3 3 (4/5)).window_size ≤ 3 ∧
    (detect_exponential_phase id [0, 1, 2] [1, 2, 3] 3 3 (4/5)).stop -
        (detect_exponential_phase id [0, 1, 2] [1, 2, 3] 3 3 (4/5)).start =
      (detect_exponential_phase id [0, 1, 2] [1, 2, 3] 3 3 (4/5)).window_size :=
  claim_C5_bounds_amended id [0, 1, 2] [1, 2, 3] 3 3 (4/5) (by decide) (by decide)
    (by decide)

/-- C6 witness for the amended claim at a concrete input. -/
theorem claim_C6_witness :
    fitWindow id [0, 1, 2] [1, 0, 2] 0 3 = none ∧
    stepBest id [0, 1, 2] [1, 0, 2] (4/5) (initBest 3) (3, 0) = initBest 3 :=
  claim_C6_nonpositive_od_skipped id [0, 1, 2] [1, 0, 2] (4/5) (initBest 3) (3, 0)
    ⟨0, by norm_num [windowSlice], le_refl 0⟩

/-- C7 witness at a concrete input. -/
theorem claim_C7_witness :
    (4/5 : ℚ) <
      (detect_exponential_phase id [0, 1, 2] [1, 2, 3] 3 3 (4/5)).r_squared := by
  apply claim_C7_threshold_gate
  rw [eval_detect_inc]
  decide

/-- C8 witness at a concrete input. -/
theorem claim_C8_witness :
    detect_exponential_phase id [0, 1] [1, 2] 3 7 (4/5) =
      detect_exponential_phase id [0, 1] [1, 2] 3 7 (4/5) :=
  claim_C8_deterministic id id [0, 1] [0, 1] [1, 2] [1, 2] 3 3 7 7 (4/5) (4/5)
    rfl rfl rfl rfl rfl rfl

/-- C9 witness: a strictly decaying concrete series yields the fallback. -/
theorem claim_C9_witness :
    0 ≤ (detect_exponential_phase id [0, 1, 2] [3, 2, 1] 3 3 (4/5)).slope ∧
    detect_exponential_phase id [0, 1, 2] [3, 2, 1] 3 3 (4/5) = ⟨0, 3, 3, 0, 0⟩ := by
  obtain ⟨h1, h2⟩ := claim_C9_slope_nonneg_and_decay id [0, 1, 2] [3, 2, 1] 3 3 (4/5)
  exact ⟨h1, h2 (by decide) (by decide) (fun a b hab => hab) rfl⟩

/-- C10 witness at a concrete input. -/
theorem claim_C10_witness :
    ∃ w s, (w, s) ∈ windows ([0, 1, 2] : List ℚ).length 3 3 ∧
      detect_exponential_phase id [0, 1, 2] [1, 2, 3] 3 3 (4/5) =
        ⟨s, s + w, w,
          lrSlope (windowSlice [0, 1, 2] s w) ((windowSlice [1, 2, 3] s w).map id),
          lrRsq (windowSlice [0, 1, 2] s w) ((windowSlice [1, 2, 3] s w).map id)⟩ := by
  apply claim_C10_consistency
  rw [eval_detect_inc]
  decide
